import Mathlib

/-!
# Verification of `misc.py` (hydro_forward_backward)

Shallow embedding of the density-estimation utilities of `src/py/misc.py`:
`get_kde`, `uniform_density` and `lnprob_from_density`, together with models
of the numpy/scipy primitives they call (`np.isfinite` filtering,
`np.linspace`, `np.trapz`, `np.interp`, and the raising behaviour of
`np.min` on an empty array, of slice assignment with a mismatched shape,
and of `scipy.stats.gaussian_kde` on a singular dataset).

Real numbers are modelled by exact rationals `ℚ`; IEEE specials (`nan`,
`±inf`) that the code manipulates explicitly (finiteness filtering, the
default widening bounds `a = +inf`, `b = -inf`) are modelled by dedicated
inductive types.  The Gaussian kernel evaluator itself is transcendental
library code external to this repository; the pipeline is parametrised over
an abstract evaluator `kdeEval`, whose single relevant property (a Gaussian
KDE is strictly positive wherever it is defined) appears as a hypothesis.
-/

/-- A sample entry as stored in a numpy float array: finite value, `nan`,
or a signed infinity.  `np.isfinite` keeps exactly the `fin` entries. -/
inductive XVal where
  | nan
  | negInf
  | posInf
  | fin (q : ℚ)
  deriving DecidableEq, Repr

/-- An extended-rational bound, as passed for the widening bounds `a`, `b`
of `get_kde` (defaults `a = np.inf`, `b = -np.inf`). -/
inductive XRat where
  | negInf
  | fin (q : ℚ)
  | posInf
  deriving DecidableEq, Repr

/-- The comparison `a < r` for an extended bound `a` against a finite `r`,
with IEEE semantics: `-inf < r` is true, `+inf < r` is false. -/
def XRat.ltQ : XRat → ℚ → Bool
  | .negInf, _ => true
  | .fin q, r => decide (q < r)
  | .posInf, _ => false

/-- The comparison `b > r` for an extended bound `b` against a finite `r`,
with IEEE semantics: `+inf > r` is true, `-inf > r` is false. -/
def XRat.gtQ : XRat → ℚ → Bool
  | .negInf, _ => false
  | .fin q, r => decide (r < q)
  | .posInf, _ => true

/-- The finite value of an extended bound.  Only meaningful on `fin`; the
model is used with `a ≠ -inf` and `b ≠ +inf` (a non-finite bound that wins
its comparison would propagate `±inf` into `np.linspace`, outside the
rational model). -/
def XRat.toQ : XRat → ℚ
  | .fin q => q
  | _ => 0

/-- `samples[np.isfinite(samples)]`: keep the finite entries, in order.
In numpy, boolean-mask indexing returns a fresh array (a copy). -/
def filterFinite (samples : List XVal) : List ℚ :=
  samples.filterMap fun v =>
    match v with
    | .fin q => some q
    | _ => none

/-- `np.min` of a nonempty array (the `[]` default is never used: the code
raises on an empty array before taking the minimum). -/
def listMin : List ℚ → ℚ
  | [] => 0
  | v :: vs => vs.foldl min v

/-- `np.max` of a nonempty array (same proviso as `listMin`). -/
def listMax : List ℚ → ℚ
  | [] => 0
  | v :: vs => vs.foldl max v

/-- `np.linspace(start, stop, n)`: `n` evenly spaced points from `start`
to `stop` inclusive. -/
def np_linspace (start stop : ℚ) (n : ℕ) : List ℚ :=
  (List.range n).map fun (i : ℕ) =>
    start + (stop - start) * (i : ℚ) / ((n : ℚ) - 1)

/-- `np.trapz(y, x)`: trapezoidal-rule integral of `y` over `x`. -/
def np_trapz : List ℚ → List ℚ → ℚ
  | y0 :: y1 :: ys, x0 :: x1 :: xs =>
      (x1 - x0) * (y1 + y0) / 2 + np_trapz (y1 :: ys) (x1 :: xs)
  | _, _ => 0

/-- `np.interp(v, xs, ys)` for increasing `xs`: clamp to `ys.head` below
`xs.head`, to the last `y` above the last `x`, and interpolate linearly on
the segment containing `v` otherwise. -/
def np_interp (v : ℚ) : List ℚ → List ℚ → ℚ
  | [_], [y0] => y0
  | x0 :: x1 :: xs, y0 :: y1 :: ys =>
      if v ≤ x0 then y0
      else if v ≤ x1 then y0 + (y1 - y0) * (v - x0) / (x1 - x0)
      else np_interp v (x1 :: xs) (y1 :: ys)
  | _, _ => 0

/-- Whether every entry of a dataset equals its head: exactly the datasets
on which `scipy.stats.gaussian_kde` raises `LinAlgError` (zero sample
variance makes the covariance singular). -/
def allSame : List ℚ → Bool
  | [] => true
  | v :: vs => vs.all (· = v)

/-- Lines 13–16 of `misc.py`: `if a < smin: smin = a` and
`if b > smax: smax = b`. -/
def applyWiden (a b : XRat) (smin smax : ℚ) : ℚ × ℚ :=
  (if a.ltQ smin then a.toQ else smin, if b.gtQ smax then b.toQ else smax)

/-- The exceptions `get_kde` can propagate. -/
inductive KdeError where
  /-- `np.min` (or `np.max`) of an empty array raises `ValueError`. -/
  | emptyInput
  /-- `samples[:2] = [smin, smax]` raises `ValueError` when the array has
  fewer than 2 slots (cannot broadcast shape (2,) into shape (1,)). -/
  | broadcastError
  /-- `scipy.stats.gaussian_kde` raises on a dataset with zero variance
  (singular covariance). -/
  | singularKde
  deriving DecidableEq, Repr

/-- Lines 13–21 of `misc.py`, the part of `get_kde` after the degenerate
check: apply the caller widening, build the `x` grid, fit and evaluate the
kernel estimator on the (possibly widened) samples `s`, and normalize by
the trapezoidal integral. -/
def get_kde_rest (kdeEval : List ℚ → ℚ → ℚ) (s : List ℚ) (smin smax : ℚ)
    (a b : XRat) (nb : ℕ) : Except KdeError (List ℚ × List ℚ) :=
  let p := applyWiden a b smin smax
  let x := np_linspace p.1 p.2 nb
  if allSame s then .error .singularKde
  else
    let yraw := x.map (kdeEval s)
    let t := np_trapz yraw x
    .ok (x, yraw.map (· / t))

/-- `get_kde(samples, a=np.inf, b=-np.inf, nb=100)` of `misc.py`: filter
non-finite entries, take the range, widen a degenerate range by scaling
(`smin *= 0.99`, `smax *= 1.01`) and overwrite the first two slots of the
(copied) sample array, widen by the caller bounds, then grid/fit/normalize
via `get_kde_rest`. -/
def get_kde (kdeEval : List ℚ → ℚ → ℚ) (samples : List XVal)
    (a b : XRat) (nb : ℕ) : Except KdeError (List ℚ × List ℚ) :=
  let s := filterFinite samples
  if s.isEmpty then .error .emptyInput
  else
    let smin := listMin s
    let smax := listMax s
    if smin = smax then
      if s.length < 2 then .error .broadcastError
      else
        get_kde_rest kdeEval
          (smin * (99/100) :: smax * (101/100) :: s.drop 2)
          (smin * (99/100)) (smax * (101/100)) a b nb
    else get_kde_rest kdeEval s smin smax a b nb

/-- `uniform_density(a, b)` of `misc.py`: 100 evenly spaced coordinates
over `[a, b]`, constant raw values 1, normalized by the trapezoidal
integral.  The body contains no raising operation (numpy division by a
zero integral warns and yields non-finite values rather than raising);
the `Except` wrapper records that no execution produces an error. -/
def uniform_density (a b : ℚ) : Except KdeError (List ℚ × List ℚ) :=
  let x := np_linspace a b 100
  let y1 : List ℚ := List.replicate 100 1
  let t := np_trapz y1 x
  .ok (x, y1.map (· / t))

/-- The value returned by the inner `lnprob`, kept symbolic: the code
returns `np.log(v * exp(e))`, i.e. `log v + e` (the interpolation branch
has `e = 0`), or `-inf` from the hard-bound check.  `np.log(0) = -inf`,
so `logOf 0 e` also denotes `-inf`. -/
inductive LnResult where
  | negInf
  | logOf (v : ℚ) (e : ℚ)
  deriving DecidableEq, Repr

/-- The real value denoted by an `LnResult`, in `WithBot ℝ` (`⊥` is
`-inf`).  A non-positive `v` denotes `⊥`: `np.log 0 = -inf` (a negative
`v` would be numpy `nan`, and is proved unreachable for valid curves). -/
noncomputable def LnResult.den : LnResult → WithBot ℝ
  | .negInf => ⊥
  | .logOf v e => if v ≤ 0 then ⊥ else ((Real.log v + e : ℝ) : WithBot ℝ)

/-- `(vmin is not None) and (value < vmin)`. -/
def belowMin (vmin : Option ℚ) (value : ℚ) : Bool :=
  match vmin with
  | some m => decide (value < m)
  | none => false

/-- `(vmax is not None) and (value > vmax)`. -/
def aboveMax (vmax : Option ℚ) (value : ℚ) : Bool :=
  match vmax with
  | some m => decide (m < value)
  | none => false

/-- The closure returned by `lnprob_from_density(xy, vmin, vmax)` of
`misc.py`, flattened: curve `(xs, ys)` and bounds become arguments.
`xy[0][0]`/`xy[0][-1]` are modelled by `headI`/`getLastD 0` (the code
indexes a nonempty curve; every claim hypothesises one). -/
def lnprob (xs ys : List ℚ) (vmin vmax : Option ℚ) (value : ℚ) : LnResult :=
  if belowMin vmin value || aboveMax vmax value then .negInf
  else if xs.headI ≤ value ∧ value ≤ xs.getLastD 0 then
    .logOf (np_interp value xs ys) 0
  else if value < xs.headI then
    .logOf ys.headI ((value - xs.headI) / (xs.getLastD 0 - xs.headI))
  else
    .logOf (ys.getLastD 0) ((xs.getLastD 0 - value) / (xs.getLastD 0 - xs.headI))

/-- The curve invariant of spec §3: equal lengths, strictly increasing
coordinates, non-negative values, unit trapezoidal integral (exact, hence
within any floating-point tolerance). -/
def curveInv (xs ys : List ℚ) : Prop :=
  xs.length = ys.length ∧ List.Chain' (· < ·) xs ∧
    (∀ y ∈ ys, 0 ≤ y) ∧ np_trapz ys xs = 1

instance (xs ys : List ℚ) : Decidable (curveInv xs ys) := by
  unfold curveInv; infer_instance

/-- `samples[:2] = [u, v]` on an array with at least two slots. -/
def overwriteFirst2 (l : List XVal) (u v : ℚ) : List XVal :=
  match l with
  | _ :: _ :: rest => .fin u :: .fin v :: rest
  | _ => l

/-- `get_kde` run against an explicit array store (arrays addressed by
index, the caller's samples at `r`), tracking the numpy aliasing
semantics: `samples[np.isfinite(samples)]` allocates a fresh array (a
copy) and rebinds the local name to it, and the degenerate-branch slice
assignment `samples[:2] = [smin, smax]` mutates that copy in place.  The
numeric result is the one computed by `get_kde`. -/
def get_kde_heap (kdeEval : List ℚ → ℚ → ℚ) (h : List (List XVal)) (r : ℕ)
    (a b : XRat) (nb : ℕ) :
    List (List XVal) × Except KdeError (List ℚ × List ℚ) :=
  let samples := h.getD r []
  let s := filterFinite samples
  let h₁ := h ++ [s.map XVal.fin]
  let rCopy := h.length
  let h₂ :=
    if ¬s.isEmpty ∧ listMin s = listMax s ∧ 2 ≤ s.length then
      h₁.set rCopy
        (overwriteFirst2 (s.map XVal.fin)
          (listMin s * (99/100)) (listMax s * (101/100)))
    else h₁
  (h₂, get_kde kdeEval samples a b nb)

/-! ## Supporting lemmas -/

theorem foldl_min_le_init (l : List ℚ) : ∀ v : ℚ, l.foldl min v ≤ v := by
  induction l with
  | nil => intro v; exact le_refl v
  | cons u t ih =>
      intro v
      calc (u :: t).foldl min v = t.foldl min (min v u) := rfl
        _ ≤ min v u := ih (min v u)
        _ ≤ v := min_le_left v u

theorem init_le_foldl_max (l : List ℚ) : ∀ v : ℚ, v ≤ l.foldl max v := by
  induction l with
  | nil => intro v; exact le_refl v
  | cons u t ih =>
      intro v
      calc v ≤ max v u := le_max_left v u
        _ ≤ t.foldl max (max v u) := ih (max v u)
        _ = (u :: t).foldl max v := rfl

theorem listMin_le_listMax (s : List ℚ) : listMin s ≤ listMax s := by
  cases s with
  | nil => exact le_refl 0
  | cons v t =>
      exact le_trans (foldl_min_le_init t v) (init_le_foldl_max t v)

theorem foldl_min_of_all_eq (t : List ℚ) (v : ℚ) (h : ∀ u ∈ t, u = v) :
    t.foldl min v = v := by
  induction t with
  | nil => rfl
  | cons u t ih =>
      have hu : u = v := h u (List.mem_cons_self u t)
      have : (u :: t).foldl min v = t.foldl min v := by
        simp [List.foldl_cons, hu]
      rw [this]
      exact ih fun w hw => h w (List.mem_cons_of_mem u hw)

theorem foldl_max_of_all_eq (t : List ℚ) (v : ℚ) (h : ∀ u ∈ t, u = v) :
    t.foldl max v = v := by
  induction t with
  | nil => rfl
  | cons u t ih =>
      have hu : u = v := h u (List.mem_cons_self u t)
      have : (u :: t).foldl max v = t.foldl max v := by
        simp [List.foldl_cons, hu]
      rw [this]
      exact ih fun w hw => h w (List.mem_cons_of_mem u hw)

theorem allSame_true_min_eq_max (s : List ℚ) (h : allSame s = true) :
    listMin s = listMax s := by
  cases s with
  | nil => rfl
  | cons v t =>
      have hall : ∀ u ∈ t, u = v := by
        intro u hu
        have := List.all_eq_true.mp h u hu
        exact of_decide_eq_true this
      show t.foldl min v = t.foldl max v
      rw [foldl_min_of_all_eq t v hall, foldl_max_of_all_eq t v hall]

theorem allSame_false_of_ne (s : List ℚ) (h : listMin s ≠ listMax s) :
    allSame s = false := by
  by_contra hc
  exact h (allSame_true_min_eq_max s (by simpa using hc))

theorem allSame_cons_cons_false (u v : ℚ) (t : List ℚ) (h : v ≠ u) :
    allSame (u :: v :: t) = false := by
  simp [allSame, h]

theorem chain'_headI_lt_getLastD (xs : List ℚ)
    (hchain : List.Chain' (· < ·) xs) (h2 : 2 ≤ xs.length) :
    xs.headI < xs.getLastD 0 := by
  induction xs with
  | nil => simp at h2
  | cons x0 t ih =>
      cases t with
      | nil => simp at h2
      | cons x1 t' =>
          have hx01 : x0 < x1 := (List.chain'_cons.mp hchain).1
          have htail : List.Chain' (· < ·) (x1 :: t') :=
            (List.chain'_cons.mp hchain).2
          cases t' with
          | nil => simpa using hx01
          | cons x2 t'' =>
              have h2' : 2 ≤ (x1 :: x2 :: t'').length := by
                simp [List.length_cons]
              have := ih htail h2'
              have hlast : (x0 :: x1 :: x2 :: t'').getLastD 0
                  = (x1 :: x2 :: t'').getLastD 0 := by
                simp [List.getLastD_cons]
              rw [hlast]
              calc x0 < x1 := hx01
                _ = (x1 :: x2 :: t'').headI := rfl
                _ < (x1 :: x2 :: t'').getLastD 0 := this

theorem np_linspace_length (a b : ℚ) (n : ℕ) :
    (np_linspace a b n).length = n := by
  rw [np_linspace, List.length_map, List.length_range]

theorem np_linspace_headI (a b : ℚ) (n : ℕ) (hn : 1 ≤ n) :
    (np_linspace a b n).headI = a := by
  obtain ⟨m, rfl⟩ : ∃ m, n = m + 1 := ⟨n - 1, by omega⟩
  rw [np_linspace, List.range_succ_eq_map]
  simp

theorem np_linspace_getLastD (a b : ℚ) (n : ℕ) (hn : 2 ≤ n) :
    (np_linspace a b n).getLastD 0 = b := by
  have hlen : (np_linspace a b n).length = n := np_linspace_length a b n
  have hne : np_linspace a b n ≠ [] := by
    intro h
    rw [h] at hlen
    simp at hlen
    omega
  have hget : (np_linspace a b n).getLastD 0
      = (np_linspace a b n).getLast hne := List.getLastD_eq_getLast? _ _ ▸ by
    rw [List.getLast?_eq_getLast _ hne]
    rfl
  rw [hget, List.getLast_eq_getElem]
  simp only [np_linspace, List.getElem_map, List.getElem_range, hlen,
    np_linspace_length, List.length_map, List.length_range]
  have hsub : ((n - 1 : ℕ) : ℚ) = (n : ℚ) - 1 := by
    have : 1 ≤ n := by omega
    push_cast [this]
    ring
  have hne2 : (n : ℚ) - 1 ≠ 0 := by
    have : (2 : ℚ) ≤ (n : ℚ) := by exact_mod_cast hn
    linarith
  rw [hsub, mul_div_assoc, div_self hne2, mul_one]
  ring

theorem np_linspace_chain (a b : ℚ) (n : ℕ) (hab : a < b) :
    List.Chain' (· < ·) (np_linspace a b n) := by
  rcases Nat.lt_or_ge n 2 with hn | hn
  · interval_cases n
    · exact List.chain'_nil
    · simp [np_linspace, List.range_succ]
  · rw [List.chain'_iff_pairwise]
    simp only [np_linspace]
    rw [List.pairwise_map]
    refine (List.pairwise_lt_range n).imp ?_
    intro i j hij
    have hd : (0 : ℚ) < (n : ℚ) - 1 := by
      have : (2 : ℚ) ≤ (n : ℚ) := by exact_mod_cast hn
      linarith
    have hba : (0 : ℚ) < b - a := by linarith
    have hnum : (b - a) * (i : ℚ) < (b - a) * (j : ℚ) := by
      have : (i : ℚ) < (j : ℚ) := by exact_mod_cast hij
      nlinarith
    have : (b - a) * (i : ℚ) / ((n : ℚ) - 1) < (b - a) * (j : ℚ) / ((n : ℚ) - 1) :=
      div_lt_div_of_pos_right hnum hd
    linarith

theorem np_trapz_map_div (t : ℚ) (ys : List ℚ) : ∀ xs : List ℚ,
    np_trapz (ys.map (· / t)) xs = np_trapz ys xs / t := by
  induction ys with
  | nil => intro xs; simp [np_trapz]
  | cons y0 ytail ih =>
      intro xs
      cases ytail with
      | nil =>
          cases xs with
          | nil => simp [np_trapz]
          | cons x0 xtail =>
              cases xtail <;> simp [np_trapz]
      | cons y1 ytail' =>
          cases xs with
          | nil => simp [np_trapz]
          | cons x0 xtail =>
              cases xtail with
              | nil => simp [np_trapz]
              | cons x1 xtail' =>
                  have ihx := ih (x1 :: xtail')
                  simp only [List.map_cons] at ihx ⊢
                  rw [np_trapz, np_trapz, ihx]
                  ring

theorem np_trapz_nonneg (ys : List ℚ) : ∀ xs : List ℚ,
    List.Chain' (· < ·) xs → (∀ y ∈ ys, 0 ≤ y) → 0 ≤ np_trapz ys xs := by
  induction ys with
  | nil => intro xs _ _; simp [np_trapz]
  | cons y0 ytail ih =>
      intro xs hchain hy
      cases ytail with
      | nil =>
          cases xs with
          | nil => simp [np_trapz]
          | cons x0 xtail => cases xtail <;> simp [np_trapz]
      | cons y1 ytail' =>
          cases xs with
          | nil => simp [np_trapz]
          | cons x0 xtail =>
              cases xtail with
              | nil => simp [np_trapz]
              | cons x1 xtail' =>
                  rw [np_trapz]
                  have hx01 : x0 < x1 := (List.chain'_cons.mp hchain).1
                  have h0 : 0 ≤ y0 := hy y0 (by simp)
                  have h1 : 0 ≤ y1 := hy y1 (by simp)
                  have hterm : 0 ≤ (x1 - x0) * (y1 + y0) / 2 :=
                    div_nonneg (mul_nonneg (by linarith) (by linarith)) (by norm_num)
                  have hrec : 0 ≤ np_trapz (y1 :: ytail') (x1 :: xtail') := by
                    apply ih (x1 :: xtail') (List.chain'_cons.mp hchain).2
                    intro y hmem
                    exact hy y (List.mem_cons_of_mem y0 hmem)
                  linarith

theorem np_trapz_pos (ys : List ℚ) (xs : List ℚ)
    (hchain : List.Chain' (· < ·) xs) (hy : ∀ y ∈ ys, 0 < y)
    (hlen : xs.length = ys.length) (h2 : 2 ≤ xs.length) :
    0 < np_trapz ys xs := by
  cases xs with
  | nil => simp at h2
  | cons x0 xtail =>
      cases xtail with
      | nil => simp at h2
      | cons x1 xtail' =>
          cases ys with
          | nil => simp at hlen
          | cons y0 ytail =>
              cases ytail with
              | nil => simp at hlen
              | cons y1 ytail' =>
                  rw [np_trapz]
                  have hx01 : x0 < x1 := (List.chain'_cons.mp hchain).1
                  have h0 : 0 < y0 := hy y0 (by simp)
                  have h1 : 0 < y1 := hy y1 (by simp)
                  have hterm : 0 < (x1 - x0) * (y1 + y0) / 2 :=
                    div_pos (mul_pos (by linarith) (by linarith)) (by norm_num)
                  have hrec : 0 ≤ np_trapz (y1 :: ytail') (x1 :: xtail') := by
                    apply np_trapz_nonneg _ _ (List.chain'_cons.mp hchain).2
                    intro y hmem
                    exact le_of_lt (hy y (List.mem_cons_of_mem y0 hmem))
                  linarith

theorem np_trapz_replicate_one (xs : List ℚ) (hne : xs ≠ []) :
    np_trapz (List.replicate xs.length 1) xs = xs.getLastD 0 - xs.headI := by
  induction xs with
  | nil => exact absurd rfl hne
  | cons x0 xtail ih =>
      cases xtail with
      | nil => simp [np_trapz]
      | cons x1 xtail' =>
          have ih' := ih (by simp)
          simp only [List.length_cons, List.replicate_succ] at ih' ⊢
          rw [np_trapz, ih']
          simp only [List.getLastD_cons, List.headI]
          ring

theorem np_interp_head (x0 : ℚ) (xt : List ℚ) (y0 : ℚ) (yt : List ℚ)
    (hlen : (x0 :: xt).length = (y0 :: yt).length) :
    np_interp x0 (x0 :: xt) (y0 :: yt) = y0 := by
  cases xt with
  | nil =>
      cases yt with
      | nil => rfl
      | cons _ _ => simp at hlen
  | cons x1 xt' =>
      cases yt with
      | nil => simp at hlen
      | cons y1 yt' => simp [np_interp]

theorem np_interp_last (xs : List ℚ) : ∀ ys : List ℚ,
    List.Chain' (· < ·) xs → xs.length = ys.length →
    np_interp (xs.getLastD 0) xs ys = ys.getLastD 0 := by
  induction xs with
  | nil =>
      intro ys _ hlen
      cases ys with
      | nil => rfl
      | cons _ _ => simp at hlen
  | cons x0 xt ih =>
      intro ys hchain hlen
      cases xt with
      | nil =>
          cases ys with
          | nil => simp at hlen
          | cons y0 yt =>
              cases yt with
              | nil => rfl
              | cons _ _ => simp at hlen
      | cons x1 xt' =>
          cases ys with
          | nil => simp at hlen
          | cons y0 yt =>
              cases yt with
              | nil => simp at hlen
              | cons y1 yt' =>
                  have hx01 : x0 < x1 := (List.chain'_cons.mp hchain).1
                  have htail : List.Chain' (· < ·) (x1 :: xt') :=
                    (List.chain'_cons.mp hchain).2
                  have hlast : (x0 :: x1 :: xt').getLastD 0
                      = (x1 :: xt').getLastD 0 := by
                    simp [List.getLastD_cons]
                  have hylast : (y0 :: y1 :: yt').getLastD 0
                      = (y1 :: yt').getLastD 0 := by
                    simp [List.getLastD_cons]
                  rw [hlast, hylast]
                  cases xt' with
                  | nil =>
                      cases yt' with
                      | nil =>
                          show np_interp x1 [x0, x1] [y0, y1] = _
                          rw [np_interp]
                          have h1 : ¬ x1 ≤ x0 := not_le.mpr hx01
                          have hne : x1 - x0 ≠ 0 := by
                            intro h
                            have : x1 = x0 := by linarith
                            exact absurd this (by linarith)
                          simp only [if_neg h1, if_pos (le_refl x1)]
                          field_simp
                      | cons _ _ => simp at hlen
                  | cons x2 xt'' =>
                      have hv : x1 < (x1 :: x2 :: xt'').getLastD 0 :=
                        chain'_headI_lt_getLastD _ htail (by simp)
                      rw [np_interp]
                      have hb0 : ¬ (x1 :: x2 :: xt'').getLastD 0 ≤ x0 :=
                        not_le.mpr (lt_trans hx01 hv)
                      have hb1 : ¬ (x1 :: x2 :: xt'').getLastD 0 ≤ x1 :=
                        not_le.mpr hv
                      simp only [if_neg hb0, if_neg hb1]
                      exact ih (y1 :: yt') htail (by simpa using hlen)

theorem np_interp_nonneg (xs : List ℚ) : ∀ (ys : List ℚ) (v : ℚ),
    List.Chain' (· < ·) xs → (∀ y ∈ ys, 0 ≤ y) → 0 ≤ np_interp v xs ys := by
  induction xs with
  | nil =>
      intro ys v _ hy
      cases ys <;> simp [np_interp]
  | cons x0 xt ih =>
      intro ys v hchain hy
      cases xt with
      | nil =>
          cases ys with
          | nil => simp [np_interp]
          | cons y0 yt =>
              cases yt with
              | nil => exact hy y0 (by simp)
              | cons _ _ => simp [np_interp]
      | cons x1 xt' =>
          cases ys with
          | nil => simp [np_interp]
          | cons y0 yt =>
              cases yt with
              | nil => simp [np_interp]
              | cons y1 yt' =>
                  have hx01 : x0 < x1 := (List.chain'_cons.mp hchain).1
                  have htail : List.Chain' (· < ·) (x1 :: xt') :=
                    (List.chain'_cons.mp hchain).2
                  have h0 : 0 ≤ y0 := hy y0 (by simp)
                  have h1 : 0 ≤ y1 := hy y1 (by simp)
                  rw [np_interp]
                  by_cases hc0 : v ≤ x0
                  · simpa [if_pos hc0] using h0
                  · by_cases hc1 : v ≤ x1
                    · simp only [if_neg hc0, if_pos hc1]
                      have hx : (0 : ℚ) < x1 - x0 := by linarith
                      have hv0 : (0 : ℚ) < v - x0 := by
                        push_neg at hc0
                        linarith
                      have hcle : (v - x0) / (x1 - x0) ≤ 1 :=
                        (div_le_one hx).mpr (by linarith)
                      have hcpos : 0 < (v - x0) / (x1 - x0) := div_pos hv0 hx
                      have hrw : y0 + (y1 - y0) * (v - x0) / (x1 - x0)
                          = y0 * (1 - (v - x0) / (x1 - x0))
                            + y1 * ((v - x0) / (x1 - x0)) := by
                        field_simp
                        ring
                      rw [hrw]
                      have t1 : 0 ≤ y0 * (1 - (v - x0) / (x1 - x0)) :=
                        mul_nonneg h0 (by linarith)
                      have t2 : 0 ≤ y1 * ((v - x0) / (x1 - x0)) :=
                        mul_nonneg h1 (le_of_lt hcpos)
                      linarith
                    · simp only [if_neg hc0, if_neg hc1]
                      exact ih (y1 :: yt') v htail fun y hm =>
                        hy y (List.mem_cons_of_mem y0 hm)

theorem np_interp_pos (xs : List ℚ) : ∀ (ys : List ℚ) (v : ℚ),
    List.Chain' (· < ·) xs → xs.length = ys.length → 2 ≤ xs.length →
    (∀ y ∈ ys, 0 < y) → 0 < np_interp v xs ys := by
  induction xs with
  | nil => intro ys v _ _ h2; simp at h2
  | cons x0 xt ih =>
      intro ys v hchain hlen h2 hy
      cases xt with
      | nil => simp at h2
      | cons x1 xt' =>
          cases ys with
          | nil => simp at hlen
          | cons y0 yt =>
              cases yt with
              | nil => simp at hlen
              | cons y1 yt' =>
                  have hx01 : x0 < x1 := (List.chain'_cons.mp hchain).1
                  have htail : List.Chain' (· < ·) (x1 :: xt') :=
                    (List.chain'_cons.mp hchain).2
                  have h0 : 0 < y0 := hy y0 (by simp)
                  have h1 : 0 < y1 := hy y1 (by simp)
                  rw [np_interp]
                  by_cases hc0 : v ≤ x0
                  · simpa [if_pos hc0] using h0
                  · by_cases hc1 : v ≤ x1
                    · simp only [if_neg hc0, if_pos hc1]
                      have hx : (0 : ℚ) < x1 - x0 := by linarith
                      have hv0 : (0 : ℚ) < v - x0 := by
                        push_neg at hc0
                        linarith
                      have hcle : (v - x0) / (x1 - x0) ≤ 1 :=
                        (div_le_one hx).mpr (by linarith)
                      have hcpos : 0 < (v - x0) / (x1 - x0) := div_pos hv0 hx
                      have hrw : y0 + (y1 - y0) * (v - x0) / (x1 - x0)
                          = y0 * (1 - (v - x0) / (x1 - x0))
                            + y1 * ((v - x0) / (x1 - x0)) := by
                        field_simp
                        ring
                      rw [hrw]
                      have t1 : 0 ≤ y0 * (1 - (v - x0) / (x1 - x0)) :=
                        mul_nonneg (le_of_lt h0) (by linarith)
                      have t2 : 0 < y1 * ((v - x0) / (x1 - x0)) :=
                        mul_pos h1 hcpos
                      linarith
                    · simp only [if_neg hc0, if_neg hc1]
                      cases xt' with
                      | nil =>
                          cases yt' with
                          | nil =>
                              show 0 < np_interp v [x1] [y1]
                              simpa [np_interp] using h1
                          | cons _ _ => simp at hlen
                      | cons x2 xt'' =>
                          cases yt' with
                          | nil => simp at hlen
                          | cons y2 yt'' =>
                              exact ih (y1 :: y2 :: yt'') v htail
                                (by simpa using hlen) (by simp)
                                fun y hm => hy y (List.mem_cons_of_mem y0 hm)

theorem applyWiden_le (a b : XRat) (smin smax : ℚ)
    (ha : a ≠ .negInf) (hb : b ≠ .posInf) :
    (applyWiden a b smin smax).1 ≤ smin ∧ smax ≤ (applyWiden a b smin smax).2 := by
  constructor
  · cases a with
    | negInf => exact absurd rfl ha
    | posInf => simp [applyWiden, XRat.ltQ]
    | fin q =>
        by_cases h : q < smin
        · simp [applyWiden, XRat.ltQ, XRat.toQ, h]
          exact le_of_lt h
        · simp [applyWiden, XRat.ltQ, XRat.toQ, h]
  · cases b with
    | posInf => exact absurd rfl hb
    | negInf => simp [applyWiden, XRat.gtQ]
    | fin q =>
        by_cases h : smax < q
        · simp [applyWiden, XRat.gtQ, XRat.toQ, h]
          exact le_of_lt h
        · simp [applyWiden, XRat.gtQ, XRat.toQ, h]

theorem get_kde_rest_inv (kdeEval : List ℚ → ℚ → ℚ)
    (hpos : ∀ l x, 0 < kdeEval l x) (s : List ℚ) (hs : allSame s = false)
    (smin smax : ℚ) (hlt : smin < smax) (a b : XRat)
    (ha : a ≠ .negInf) (hb : b ≠ .posInf) (nb : ℕ) (hnb : 2 ≤ nb) :
    ∃ x y, get_kde_rest kdeEval s smin smax a b nb = .ok (x, y)
      ∧ curveInv x y := by
  obtain ⟨h1, h2⟩ := applyWiden_le a b smin smax ha hb
  set p := applyWiden a b smin smax with hp
  have hlt' : p.1 < p.2 := lt_of_le_of_lt h1 (lt_of_lt_of_le hlt h2)
  set x := np_linspace p.1 p.2 nb with hx
  have hchain : List.Chain' (· < ·) x := np_linspace_chain _ _ nb hlt'
  have hxlen : x.length = nb := np_linspace_length _ _ nb
  set yraw := x.map (kdeEval s) with hyraw
  have hylen : yraw.length = nb := by rw [hyraw, List.length_map, hxlen]
  have hypos : ∀ y ∈ yraw, 0 < y := by
    intro y hy
    obtain ⟨u, _, rfl⟩ := List.mem_map.mp hy
    exact hpos s u
  set t := np_trapz yraw x with ht
  have htpos : 0 < t :=
    np_trapz_pos yraw x hchain hypos (by rw [hxlen, hylen]) (by omega)
  refine ⟨x, yraw.map (· / t), ?_, ?_⟩
  · rw [get_kde_rest]
    simp only [hs]
    rfl
  · refine ⟨?_, hchain, ?_, ?_⟩
    · rw [List.length_map, hylen, hxlen]
    · intro y hy
      obtain ⟨u, hu, rfl⟩ := List.mem_map.mp hy
      exact le_of_lt (div_pos (hypos u hu) htpos)
    · rw [np_trapz_map_div, ← ht, div_self (ne_of_gt htpos)]

theorem listMin_cons (v : ℚ) (t : List ℚ) : listMin (v :: t) = t.foldl min v := rfl

theorem listMax_cons (v : ℚ) (t : List ℚ) : listMax (v :: t) = t.foldl max v := rfl

theorem get_kde_inv (kdeEval : List ℚ → ℚ → ℚ)
    (hpos : ∀ l x, 0 < kdeEval l x) (samples : List XVal) (a b : XRat)
    (ha : a ≠ .negInf) (hb : b ≠ .posInf) (nb : ℕ) (hnb : 2 ≤ nb)
    (hlen : 2 ≤ (filterFinite samples).length)
    (hrange : listMin (filterFinite samples) < listMax (filterFinite samples)
      ∨ (listMin (filterFinite samples) = listMax (filterFinite samples)
         ∧ 0 < listMin (filterFinite samples))) :
    ∃ x y, get_kde kdeEval samples a b nb = .ok (x, y) ∧ curveInv x y := by
  set s := filterFinite samples with hsdef
  have hne : s.isEmpty = false := by
    cases h : s with
    | nil => rw [h] at hlen; simp at hlen
    | cons _ _ => simp [h]
  rw [get_kde]
  simp only [← hsdef, hne, Bool.false_eq_true, if_false]
  rcases hrange with hlt | ⟨heq, hcpos⟩
  · have hne2 : listMin s ≠ listMax s := ne_of_lt hlt
    simp only [if_neg hne2]
    exact get_kde_rest_inv kdeEval hpos s (allSame_false_of_ne s hne2)
      _ _ hlt a b ha hb nb hnb
  · simp only [if_pos heq, if_neg (by omega : ¬ s.length < 2)]
    set c := listMin s with hc
    have hlt' : c * (99/100) < c * (101/100) := by nlinarith
    have hsame : allSame (c * (99/100) :: c * (101/100) :: s.drop 2)
        = false :=
      allSame_cons_cons_false _ _ _ (by nlinarith)
    rw [← heq]
    exact get_kde_rest_inv kdeEval hpos _ hsame _ _ hlt' a b ha hb nb hnb

theorem uniform_density_spec (a b : ℚ) (hab : a < b) :
    uniform_density a b
      = .ok (np_linspace a b 100, List.replicate 100 (1 / (b - a)))
    ∧ curveInv (np_linspace a b 100) (List.replicate 100 (1 / (b - a)))
    ∧ (np_linspace a b 100).headI = a
    ∧ (np_linspace a b 100).getLastD 0 = b := by
  have hlen : (np_linspace a b 100).length = 100 := np_linspace_length a b 100
  have hne : np_linspace a b 100 ≠ [] := by
    intro h
    rw [h] at hlen
    simp at hlen
  have hchain : List.Chain' (· < ·) (np_linspace a b 100) :=
    np_linspace_chain a b 100 hab
  have hhead : (np_linspace a b 100).headI = a :=
    np_linspace_headI a b 100 (by norm_num)
  have hlast : (np_linspace a b 100).getLastD 0 = b :=
    np_linspace_getLastD a b 100 (by norm_num)
  have htrapz : np_trapz (List.replicate 100 1) (np_linspace a b 100)
      = b - a := by
    have := np_trapz_replicate_one (np_linspace a b 100) hne
    rw [hlen] at this
    rw [this, hhead, hlast]
  have hba : b - a ≠ 0 := by
    intro h
    have : b = a := by linarith
    exact absurd this (by linarith)
  constructor
  · rw [uniform_density]
    simp only [htrapz]
    have hmap : (List.replicate 100 (1 : ℚ)).map (· / (b - a))
        = List.replicate 100 (1 / (b - a)) := by
      rw [List.map_replicate]
    rw [hmap]
  · refine ⟨⟨?_, hchain, ?_, ?_⟩, hhead, hlast⟩
    · rw [hlen, List.length_replicate]
    · intro y hy
      rw [List.eq_of_mem_replicate hy]
      have : (0 : ℚ) < b - a := by linarith
      positivity
    · have hmap : List.replicate 100 ((1 : ℚ) / (b - a))
          = (List.replicate 100 (1 : ℚ)).map (· / (b - a)) := by
        rw [List.map_replicate]
      rw [hmap, np_trapz_map_div, htrapz, div_self hba]

theorem headI_nonneg (ys : List ℚ) (hy : ∀ y ∈ ys, 0 ≤ y) : 0 ≤ ys.headI := by
  cases ys with
  | nil => exact le_refl 0
  | cons y0 yt => exact hy y0 (by simp)

theorem getLastD_nonneg (ys : List ℚ) (hy : ∀ y ∈ ys, 0 ≤ y) :
    0 ≤ ys.getLastD 0 := by
  cases ys with
  | nil => exact le_refl 0
  | cons y0 yt =>
      have hmem : (y0 :: yt).getLastD 0 ∈ y0 :: yt := by
        rw [List.getLastD_eq_getLast? , List.getLast?_eq_getLast _ (by simp)]
        exact List.getLast_mem _
      exact hy _ hmem

theorem headI_pos (ys : List ℚ) (hne : ys ≠ []) (hy : ∀ y ∈ ys, 0 < y) :
    0 < ys.headI := by
  cases ys with
  | nil => exact absurd rfl hne
  | cons y0 yt => exact hy y0 (by simp)

theorem getLastD_pos (ys : List ℚ) (hne : ys ≠ []) (hy : ∀ y ∈ ys, 0 < y) :
    0 < ys.getLastD 0 := by
  cases ys with
  | nil => exact absurd rfl hne
  | cons y0 yt =>
      have hmem : (y0 :: yt).getLastD 0 ∈ y0 :: yt := by
        rw [List.getLastD_eq_getLast? , List.getLast?_eq_getLast _ (by simp)]
        exact List.getLast_mem _
      exact hy _ hmem

/-! ## Claim theorems -/

/-- C2: for a strictly increasing curve and a value inside the support
`[x[0], x[-1]]` that the hard bounds do not exclude, `lnprob` returns the
log of the linear interpolation of `y` at `value`; at `value = x[0]` this
is `log y[0]` and at `value = x[-1]` it is `log y[-1]` (continuity at the
interpolation/extrapolation boundary). -/
theorem lnprob_in_support_interp (xs ys : List ℚ) (vmin vmax : Option ℚ)
    (value : ℚ) (hlen : xs.length = ys.length)
    (hchain : List.Chain' (· < ·) xs) (h2 : 2 ≤ xs.length)
    (hmin : belowMin vmin value = false) (hmax : aboveMax vmax value = false)
    (hlo : xs.headI ≤ value) (hhi : value ≤ xs.getLastD 0) :
    lnprob xs ys vmin vmax value = .logOf (np_interp value xs ys) 0
    ∧ (value = xs.headI → lnprob xs ys vmin vmax value = .logOf ys.headI 0)
    ∧ (value = xs.getLastD 0 →
        lnprob xs ys vmin vmax value = .logOf (ys.getLastD 0) 0) := by
  have hbranch : lnprob xs ys vmin vmax value
      = .logOf (np_interp value xs ys) 0 := by
    rw [lnprob, hmin, hmax]
    simp only [Bool.or_self, Bool.false_eq_true, if_false]
    rw [if_pos ⟨hlo, hhi⟩]
  refine ⟨hbranch, ?_, ?_⟩
  · intro hv
    rw [hbranch]
    cases xs with
    | nil => simp at h2
    | cons x0 xt =>
        cases ys with
        | nil => simp at hlen
        | cons y0 yt =>
            have hvx : value = x0 := hv
            rw [hvx, np_interp_head x0 xt y0 yt hlen]
            rfl
  · intro hv
    rw [hbranch, hv, np_interp_last xs ys hchain hlen]

/-- Witness for C2 at the concrete curve `x = [0, 1]`, `y = [2, 4]` and
`value = 1/2` (and at both endpoints). -/
theorem lnprob_in_support_interp_witness :
    lnprob [0, 1] [2, 4] none none (1/2) = .logOf 3 0
    ∧ lnprob [0, 1] [2, 4] none none 0 = .logOf 2 0
    ∧ lnprob [0, 1] [2, 4] none none 1 = .logOf 4 0 := by
  have hch : List.Chain' (· < ·) [(0 : ℚ), 1] := by
    simp [List.chain'_cons]
  have h1 := lnprob_in_support_interp [0, 1] [2, 4] none none (1/2)
    rfl hch (by simp) rfl rfl (by norm_num) (by norm_num)
  have h2 := lnprob_in_support_interp [0, 1] [2, 4] none none 0
    rfl hch (by simp) rfl rfl (by norm_num) (by norm_num)
  have h3 := lnprob_in_support_interp [0, 1] [2, 4] none none 1
    rfl hch (by simp) rfl rfl (by norm_num) (by norm_num)
  refine ⟨?_, ?_, ?_⟩
  · rw [h1.1]
    norm_num [np_interp]
  · have := h2.2.1 (by norm_num)
    simpa using this
  · have := h3.2.2 (by norm_num)
    simpa using this

/-- C4: if `vmin` is set and `value < vmin`, or `vmax` is set and
`value > vmax`, the returned function yields `-inf` immediately, for every
curve (the check precedes interpolation and tail extrapolation). -/
theorem lnprob_hard_bounds (xs ys : List ℚ) (vmin vmax : Option ℚ)
    (value : ℚ)
    (h : (∃ m, vmin = some m ∧ value < m)
       ∨ (∃ m, vmax = some m ∧ m < value)) :
    lnprob xs ys vmin vmax value = .negInf := by
  have hb : (belowMin vmin value || aboveMax vmax value) = true := by
    rcases h with ⟨m, rfl, hm⟩ | ⟨m, rfl, hm⟩
    · simp [belowMin, hm]
    · simp [aboveMax, hm]
  rw [lnprob, hb]
  simp

/-- Witness for C4: `vmin = 5`, `value = 4.999`, on a curve whose density
at that point is positive. -/
theorem lnprob_hard_bounds_witness :
    lnprob [0, 10] [1, 1] (some 5) none (4999/1000) = .negInf :=
  lnprob_hard_bounds [0, 10] [1, 1] (some 5) none (4999/1000)
    (Or.inl ⟨5, rfl, by norm_num⟩)

/-- C8: `get_kde` fails whenever the filtered sample set is empty (the
range computation raises) or has a single point (the degenerate-branch
slice assignment raises); in the empty case the error is the
empty-input one. -/
theorem get_kde_fails_small (kdeEval : List ℚ → ℚ → ℚ) (samples : List XVal)
    (a b : XRat) (nb : ℕ) (h : (filterFinite samples).length < 2) :
    (get_kde kdeEval samples a b nb).isOk = false
    ∧ (filterFinite samples = [] →
        get_kde kdeEval samples a b nb = .error .emptyInput) := by
  cases hs : filterFinite samples with
  | nil =>
      have hres : get_kde kdeEval samples a b nb = .error .emptyInput := by
        rw [get_kde]
        simp [hs]
      rw [hres]
      exact ⟨rfl, fun _ => rfl⟩
  | cons v t =>
      cases t with
      | nil =>
          have hres : get_kde kdeEval samples a b nb
              = .error .broadcastError := by
            rw [get_kde]
            simp [hs, listMin, listMax]
          rw [hres]
          exact ⟨rfl, fun hc => absurd hc (by simp)⟩
      | cons _ _ =>
          rw [hs] at h
          simp at h
          omega

/-- Witness for C8: one sample array with no finite entry, and one with a
single finite entry; both make `get_kde` fail. -/
theorem get_kde_fails_small_witness :
    (get_kde (fun _ _ => 1) [XVal.nan, XVal.posInf] .posInf .negInf 100).isOk
      = false
    ∧ get_kde (fun _ _ => 1) [XVal.nan, XVal.posInf] .posInf .negInf 100
      = .error .emptyInput
    ∧ (get_kde (fun _ _ => 1) [XVal.fin 5] .posInf .negInf 100).isOk
      = false := by
  have h1 := get_kde_fails_small (fun _ _ => 1) [XVal.nan, XVal.posInf]
    .posInf .negInf 100 (by decide)
  have h2 := get_kde_fails_small (fun _ _ => 1) [XVal.fin 5]
    .posInf .negInf 100 (by decide)
  exact ⟨h1.1, h1.2 (by decide), h2.1⟩

/-- C9: in the caller-bound widening step of `get_kde`, a finite `a`
replaces `smin` exactly when `a < smin`, a finite `b` replaces `smax`
exactly when `b > smax`, and the defaults `a = +inf`, `b = -inf` never
change the range. -/
theorem applyWiden_asymmetric (smin smax : ℚ) :
    (∀ (b : XRat) (q : ℚ),
        (applyWiden (.fin q) b smin smax).1 = if q < smin then q else smin)
    ∧ (∀ (a : XRat) (q : ℚ),
        (applyWiden a (.fin q) smin smax).2 = if smax < q then q else smax)
    ∧ applyWiden .posInf .negInf smin smax = (smin, smax) := by
  refine ⟨fun b q => ?_, fun a q => ?_, ?_⟩
  · by_cases h : q < smin <;>
      simp [applyWiden, XRat.ltQ, XRat.toQ, h]
  · by_cases h : smax < q <;>
      simp [applyWiden, XRat.gtQ, XRat.toQ, h]
  · simp [applyWiden, XRat.ltQ, XRat.gtQ]

/-- C10: running `get_kde` against the array store never changes any
pre-existing array — in particular the caller's sample array — because the
finiteness filtering allocates a fresh copy and the degenerate-branch
overwrite targets only that copy. -/
theorem get_kde_heap_frame (kdeEval : List ℚ → ℚ → ℚ)
    (h : List (List XVal)) (r : ℕ) (a b : XRat) (nb : ℕ) (i : ℕ)
    (hi : i < h.length) :
    ((get_kde_heap kdeEval h r a b nb).1)[i]? = h[i]? := by
  rw [get_kde_heap]
  simp only
  set s := filterFinite (h.getD r []) with hs
  by_cases hc : ¬s.isEmpty = true ∧ listMin s = listMax s ∧ 2 ≤ s.length
  · rw [if_pos hc]
    rw [List.getElem?_set_ne (by omega)]
    rw [List.getElem?_append, if_pos hi]
  · rw [if_neg hc]
    rw [List.getElem?_append, if_pos hi]

/-- Witness for C10: a concrete store holding one degenerate caller array
(which exercises the overwrite path); the caller's array is unchanged. -/
theorem get_kde_heap_frame_witness :
    (0 : ℕ) < ([[XVal.fin 3, XVal.fin 3]] : List (List XVal)).length
    ∧ ((get_kde_heap (fun _ _ => 1) [[XVal.fin 3, XVal.fin 3]] 0
          .posInf .negInf 2).1)[0]?
      = ([[XVal.fin 3, XVal.fin 3]] : List (List XVal))[0]? :=
  ⟨by decide,
    get_kde_heap_frame (fun _ _ => 1) [[XVal.fin 3, XVal.fin 3]] 0
      .posInf .negInf 2 0 (by decide)⟩

theorem listMin_all_eq (s : List ℚ) (c : ℚ) (hne : s ≠ [])
    (hall : ∀ u ∈ s, u = c) : listMin s = c := by
  cases s with
  | nil => exact absurd rfl hne
  | cons v t =>
      have hv : v = c := hall v (by simp)
      rw [listMin_cons, hv]
      exact foldl_min_of_all_eq t c fun u hu =>
        hall u (List.mem_cons_of_mem v hu)

theorem listMax_all_eq (s : List ℚ) (c : ℚ) (hne : s ≠ [])
    (hall : ∀ u ∈ s, u = c) : listMax s = c := by
  cases s with
  | nil => exact absurd rfl hne
  | cons v t =>
      have hv : v = c := hall v (by simp)
      rw [listMax_cons, hv]
      exact foldl_max_of_all_eq t c fun u hu =>
        hall u (List.mem_cons_of_mem v hu)

/-- C1 (amended): the curve invariant — equal lengths, strictly increasing
`x`, non-negative `y`, unit trapezoidal integral — holds for every curve
returned by `get_kde` whose filtered sample set has at least two entries
and a range that is non-degenerate or degenerate at a positive value
(with finite-or-default bounds, at least two bins, and a positive kernel
evaluator), and for every curve returned by `uniform_density` with
`a < b`.  (The unamended claim fails for degenerate sample sets with a
non-positive value, see the counterexample.) -/
theorem density_curves_satisfy_invariant :
    (∀ kdeEval : List ℚ → ℚ → ℚ, (∀ l x, 0 < kdeEval l x) →
      ∀ (samples : List XVal) (a b : XRat), a ≠ .negInf → b ≠ .posInf →
      ∀ nb : ℕ, 2 ≤ nb →
      2 ≤ (filterFinite samples).length →
      (listMin (filterFinite samples) < listMax (filterFinite samples)
        ∨ (listMin (filterFinite samples) = listMax (filterFinite samples)
           ∧ 0 < listMin (filterFinite samples))) →
      ∃ x y, get_kde kdeEval samples a b nb = .ok (x, y) ∧ curveInv x y)
    ∧ (∀ a b : ℚ, a < b →
        ∃ x y, uniform_density a b = .ok (x, y) ∧ curveInv x y) := by
  constructor
  · intro kdeEval hpos samples a b ha hb nb hnb hlen hrange
    exact get_kde_inv kdeEval hpos samples a b ha hb nb hnb hlen hrange
  · intro a b hab
    obtain ⟨hok, hinv, _, _⟩ := uniform_density_spec a b hab
    exact ⟨_, _, hok, hinv⟩

/-- Witness for C1 (amended) at the sample set `[1, 2]` with default
bounds and at `uniform_density 0 10`. -/
theorem density_curves_satisfy_invariant_witness :
    (∃ x y, get_kde (fun _ _ => 1) [XVal.fin 1, XVal.fin 2] .posInf .negInf 2
        = .ok (x, y) ∧ curveInv x y)
    ∧ (∃ x y, uniform_density 0 10 = .ok (x, y) ∧ curveInv x y) := by
  constructor
  · apply density_curves_satisfy_invariant.1 (fun _ _ => 1)
      (fun _ _ => one_pos) [XVal.fin 1, XVal.fin 2] .posInf .negInf
      (by simp) (by simp) 2 le_rfl (by simp [filterFinite])
    left
    have hf : filterFinite [XVal.fin 1, XVal.fin 2] = [1, 2] := rfl
    rw [hf]
    show listMin [(1 : ℚ), 2] < listMax [(1 : ℚ), 2]
    norm_num [listMin, listMax]
  · exact density_curves_satisfy_invariant.2 0 10 (by norm_num)

/-- C1 counterexample: the sample set `[-1, -1]` has two finite entries
(valid per the stated preconditions), yet `get_kde` returns a curve whose
`x` coordinates are strictly decreasing — the 0.99/1.01 degenerate
widening inverts a negative range — so the curve invariant fails. -/
theorem density_curve_invariant_cex :
    2 ≤ (filterFinite [XVal.fin (-1), XVal.fin (-1)]).length
    ∧ get_kde (fun _ _ => 1) [XVal.fin (-1), XVal.fin (-1)] .posInf .negInf 2
      = .ok ([-99/100, -101/100], [-50, -50])
    ∧ ¬ curveInv [-99/100, -101/100] [-50, -50] := by
  refine ⟨by simp [filterFinite], ?_, ?_⟩
  · have hf : filterFinite [XVal.fin (-1), XVal.fin (-1)] = [-1, -1] := rfl
    rw [get_kde, hf]
    have hmin : listMin [(-1 : ℚ), -1] = -1 := by
      simp [listMin]
    have hmax : listMax [(-1 : ℚ), -1] = -1 := by
      simp [listMax]
    rw [hmin, hmax]
    simp only [List.isEmpty_cons, Bool.false_eq_true, if_false, if_pos rfl,
      List.length_cons, List.length_nil]
    norm_num
    rw [get_kde_rest]
    have hsame : allSame [(-(99/100) : ℚ), -(101/100)] = false := by
      apply allSame_cons_cons_false
      norm_num
    have hw : applyWiden .posInf .negInf (-(99/100) : ℚ) (-(101/100))
        = (-(99/100), -(101/100)) := rfl
    have hx : np_linspace (-(99/100) : ℚ) (-(101/100)) 2
        = [-(99/100), -(101/100)] := by
      rw [np_linspace]
      norm_num [List.range_succ]
    simp only [hw, hx, hsame, Bool.false_eq_true, if_false, List.map_cons,
      List.map_nil]
    norm_num [np_trapz]
  · intro hinv
    obtain ⟨_, hchain, _, _⟩ := hinv
    have := (List.chain'_cons.mp hchain).1
    norm_num at this

/-- C7 (amended): for a degenerate sample set (at least two finite
entries, all equal to `c`), the 0.99/1.01 widening yields a valid
increasing range exactly when `c > 0` (it is zero-width at `c = 0` and
inverted for `c < 0`); for every positive `c`, `get_kde` with default
bounds succeeds and its output satisfies the curve invariant (in
particular no error and no ill-formed values). -/
theorem get_kde_degenerate_positive (kdeEval : List ℚ → ℚ → ℚ)
    (hpos : ∀ l x, 0 < kdeEval l x) (samples : List XVal) (c : ℚ)
    (hc : 0 < c) (hall : ∀ u ∈ filterFinite samples, u = c)
    (hlen : 2 ≤ (filterFinite samples).length) (nb : ℕ) (hnb : 2 ≤ nb) :
    (c * (99/100) < c * (101/100))
    ∧ ∃ x y, get_kde kdeEval samples .posInf .negInf nb = .ok (x, y)
        ∧ curveInv x y := by
  have hne : filterFinite samples ≠ [] := by
    intro h
    rw [h] at hlen
    simp at hlen
  have hmin : listMin (filterFinite samples) = c :=
    listMin_all_eq _ c hne hall
  have hmax : listMax (filterFinite samples) = c :=
    listMax_all_eq _ c hne hall
  refine ⟨by nlinarith, ?_⟩
  apply get_kde_inv kdeEval hpos samples .posInf .negInf (by simp) (by simp)
    nb hnb hlen
  right
  rw [hmin, hmax]
  exact ⟨rfl, hc⟩

/-- Witness for C7 (amended) at the sample set `[3, 3, 3]` of the spec's
example. -/
theorem get_kde_degenerate_positive_witness :
    ((3 : ℚ) * (99/100) < 3 * (101/100))
    ∧ ∃ x y, get_kde (fun _ _ => 1) [XVal.fin 3, XVal.fin 3, XVal.fin 3]
        .posInf .negInf 100 = .ok (x, y) ∧ curveInv x y := by
  apply get_kde_degenerate_positive (fun _ _ => 1) (fun _ _ => one_pos)
    [XVal.fin 3, XVal.fin 3, XVal.fin 3] 3 (by norm_num) ?_ (by simp [filterFinite]) 100 (by norm_num)
  have hf : filterFinite [XVal.fin 3, XVal.fin 3, XVal.fin 3] = [3, 3, 3] := rfl
  rw [hf]
  intro u hu
  simpa using hu

/-- C7 counterexample: for the degenerate value `c = -2 ≠ 0` the widening
produces an inverted range (`1.01c < 0.99c`), and `get_kde` returns a
curve with strictly decreasing `x` — refuting that a zero-width or
inverted range arises only at `c = 0`. -/
theorem get_kde_degenerate_cex :
    ((-2 : ℚ) ≠ 0)
    ∧ ((-2 : ℚ) * (101/100) < (-2 : ℚ) * (99/100))
    ∧ get_kde (fun _ _ => 1) [XVal.fin (-2), XVal.fin (-2)] .posInf .negInf 2
      = .ok ([-99/50, -101/50], [-25, -25])
    ∧ ¬ List.Chain' (· < ·) [(-99 : ℚ)/50, -101/50] := by
  refine ⟨by norm_num, by norm_num, ?_, ?_⟩
  · have hf : filterFinite [XVal.fin (-2), XVal.fin (-2)] = [-2, -2] := rfl
    rw [get_kde, hf]
    have hmin : listMin [(-2 : ℚ), -2] = -2 := by
      simp [listMin]
    have hmax : listMax [(-2 : ℚ), -2] = -2 := by
      simp [listMax]
    rw [hmin, hmax]
    simp only [List.isEmpty_cons, Bool.false_eq_true, if_false, if_pos rfl,
      List.length_cons, List.length_nil]
    norm_num
    rw [get_kde_rest]
    have hsame : allSame [(-(99/50) : ℚ), -(101/50)] = false := by
      apply allSame_cons_cons_false
      norm_num
    have hw : applyWiden .posInf .negInf (-(99/50) : ℚ) (-(101/50))
        = (-(99/50), -(101/50)) := rfl
    have hx : np_linspace (-(99/50) : ℚ) (-(101/50)) 2
        = [-(99/50), -(101/50)] := by
      rw [np_linspace]
      norm_num [List.range_succ]
    simp only [hw, hx, hsame, Bool.false_eq_true, if_false, List.map_cons,
      List.map_nil]
    norm_num [np_trapz]
  · intro hchain
    have := (List.chain'_cons.mp hchain).1
    norm_num at this

/-- C6 (amended): `uniform_density` takes no bin-count parameter (always
100 bins) and never raises — in particular not for `a ≥ b`, where numpy
silently yields a non-normalizable curve instead; for `a < b` it returns
a flat curve: 100 evenly spaced `x` spanning exactly `[a, b]` with every
`y` equal to `1 / (b - a)`, satisfying the curve invariant. -/
theorem uniform_density_flat (a b : ℚ) (hab : a < b) :
    uniform_density a b
      = .ok (np_linspace a b 100, List.replicate 100 (1 / (b - a)))
    ∧ (np_linspace a b 100).length = 100
    ∧ (np_linspace a b 100).headI = a
    ∧ (np_linspace a b 100).getLastD 0 = b
    ∧ (∀ u ∈ List.replicate 100 ((1 : ℚ) / (b - a)),
        ∀ w ∈ List.replicate 100 ((1 : ℚ) / (b - a)), u = w)
    ∧ curveInv (np_linspace a b 100) (List.replicate 100 (1 / (b - a))) := by
  obtain ⟨hok, hinv, hhead, hlast⟩ := uniform_density_spec a b hab
  refine ⟨hok, np_linspace_length a b 100, hhead, hlast, ?_, hinv⟩
  intro u hu w hw
  rw [List.eq_of_mem_replicate hu, List.eq_of_mem_replicate hw]

/-- Witness for C6 (amended) at `uniform_density 0 10`. -/
theorem uniform_density_flat_witness :
    uniform_density 0 10
      = .ok (np_linspace 0 10 100, List.replicate 100 (1 / 10))
    ∧ (np_linspace 0 10 100).headI = 0
    ∧ (np_linspace 0 10 100).getLastD 0 = 10 := by
  have h := uniform_density_flat 0 10 (by norm_num)
  refine ⟨?_, h.2.2.1, h.2.2.2.1⟩
  have h1 := h.1
  norm_num at h1 ⊢
  exact h1

/-- C6 counterexample: `uniform_density` called with `a = b` and with
`a > b` returns a value in both cases — it does not raise on `a ≥ b`. -/
theorem uniform_density_no_raise_cex :
    (uniform_density 1 1).isOk = true ∧ (uniform_density 2 1).isOk = true :=
  ⟨rfl, rfl⟩

theorem den_logOf_of_pos (v e : ℚ) (hv : 0 < v) :
    (LnResult.logOf v e).den = ((Real.log v + e : ℝ) : WithBot ℝ) := by
  simp [LnResult.den, not_le.mpr hv]

theorem lnprob_above_branch (xs ys : List ℚ) (vmin vmax : Option ℚ)
    (value : ℚ) (hm : belowMin vmin value = false)
    (hM : aboveMax vmax value = false)
    (hhl : xs.headI ≤ xs.getLastD 0) (hv : xs.getLastD 0 < value) :
    lnprob xs ys vmin vmax value
      = .logOf (ys.getLastD 0)
          ((xs.getLastD 0 - value) / (xs.getLastD 0 - xs.headI)) := by
  rw [lnprob, hm, hM]
  simp only [Bool.or_self, Bool.false_eq_true, if_false]
  have hnot1 : ¬ (xs.headI ≤ value ∧ value ≤ xs.getLastD 0) := by
    rintro ⟨_, h⟩
    exact absurd h (not_le.mpr hv)
  have hnot2 : ¬ value < xs.headI :=
    not_lt.mpr (le_trans hhl (le_of_lt hv))
  rw [if_neg hnot1, if_neg hnot2]

theorem lnprob_below_branch (xs ys : List ℚ) (vmin vmax : Option ℚ)
    (value : ℚ) (hm : belowMin vmin value = false)
    (hM : aboveMax vmax value = false) (hv : value < xs.headI) :
    lnprob xs ys vmin vmax value
      = .logOf ys.headI
          ((value - xs.headI) / (xs.getLastD 0 - xs.headI)) := by
  rw [lnprob, hm, hM]
  simp only [Bool.or_self, Bool.false_eq_true, if_false]
  have hnot1 : ¬ (xs.headI ≤ value ∧ value ≤ xs.getLastD 0) := by
    rintro ⟨h, _⟩
    exact absurd h (not_le.mpr hv)
  rw [if_neg hnot1, if_pos hv]

/-- C3 (amended): outside the support and outside no hard bound, `lnprob`
returns `log vtail + e` with `vtail` the boundary density and `e` the
negative signed distance to the boundary normalized by the support width;
provided the boundary density is positive (as for every curve produced by
the estimators, though not guaranteed by the invariant alone), the
denoted log-probability is strictly decreasing in the distance above the
support and finite for every finite value. -/
theorem lnprob_tail_extrapolation (xs ys : List ℚ) (vmin vmax : Option ℚ)
    (hchain : List.Chain' (· < ·) xs) (hlen : xs.length = ys.length)
    (h2 : 2 ≤ xs.length) :
    (∀ value, belowMin vmin value = false → aboveMax vmax value = false →
      xs.getLastD 0 < value →
      lnprob xs ys vmin vmax value
        = .logOf (ys.getLastD 0)
            ((xs.getLastD 0 - value) / (xs.getLastD 0 - xs.headI)))
    ∧ (∀ value, belowMin vmin value = false → aboveMax vmax value = false →
      value < xs.headI →
      lnprob xs ys vmin vmax value
        = .logOf ys.headI
            ((value - xs.headI) / (xs.getLastD 0 - xs.headI)))
    ∧ (0 < ys.getLastD 0 →
      ∀ v₁ v₂, belowMin vmin v₁ = false → aboveMax vmax v₁ = false →
        belowMin vmin v₂ = false → aboveMax vmax v₂ = false →
        xs.getLastD 0 < v₁ → v₁ < v₂ →
        (lnprob xs ys vmin vmax v₂).den < (lnprob xs ys vmin vmax v₁).den)
    ∧ (0 < ys.getLastD 0 →
      ∀ value, belowMin vmin value = false → aboveMax vmax value = false →
        xs.getLastD 0 < value →
        (lnprob xs ys vmin vmax value).den ≠ ⊥)
    ∧ (0 < ys.headI →
      ∀ v₁ v₂, belowMin vmin v₁ = false → aboveMax vmax v₁ = false →
        belowMin vmin v₂ = false → aboveMax vmax v₂ = false →
        v₁ < xs.headI → v₂ < v₁ →
        (lnprob xs ys vmin vmax v₂).den < (lnprob xs ys vmin vmax v₁).den)
    ∧ (0 < ys.headI →
      ∀ value, belowMin vmin value = false → aboveMax vmax value = false →
        value < xs.headI →
        (lnprob xs ys vmin vmax value).den ≠ ⊥) := by
  have hW : xs.headI < xs.getLastD 0 := chain'_headI_lt_getLastD xs hchain h2
  refine ⟨?_, ?_, ?_, ?_, ?_, ?_⟩
  · intro value hm hM hv
    exact lnprob_above_branch xs ys vmin vmax value hm hM (le_of_lt hW) hv
  · intro value hm hM hv
    exact lnprob_below_branch xs ys vmin vmax value hm hM hv
  · intro hylpos v₁ v₂ hm1 hM1 hm2 hM2 hv1 hv12
    have hr1 := lnprob_above_branch xs ys vmin vmax v₁ hm1 hM1
      (le_of_lt hW) hv1
    have hr2 := lnprob_above_branch xs ys vmin vmax v₂ hm2 hM2
      (le_of_lt hW) (lt_trans hv1 hv12)
    rw [hr1, hr2, den_logOf_of_pos _ _ hylpos, den_logOf_of_pos _ _ hylpos]
    rw [WithBot.coe_lt_coe]
    have hwidth : (0 : ℚ) < xs.getLastD 0 - xs.headI := by linarith
    have he : (xs.getLastD 0 - v₂) / (xs.getLastD 0 - xs.headI)
        < (xs.getLastD 0 - v₁) / (xs.getLastD 0 - xs.headI) :=
      div_lt_div_of_pos_right (by linarith) hwidth
    have he' : (((xs.getLastD 0 - v₂) / (xs.getLastD 0 - xs.headI) : ℚ) : ℝ)
        < (((xs.getLastD 0 - v₁) / (xs.getLastD 0 - xs.headI) : ℚ) : ℝ) := by
      exact_mod_cast he
    exact add_lt_add_left he' _
  · intro hylpos value hm hM hv
    rw [lnprob_above_branch xs ys vmin vmax value hm hM (le_of_lt hW) hv,
      den_logOf_of_pos _ _ hylpos]
    exact WithBot.coe_ne_bot
  · intro hyhpos v₁ v₂ hm1 hM1 hm2 hM2 hv1 hv12
    have hr1 := lnprob_below_branch xs ys vmin vmax v₁ hm1 hM1 hv1
    have hr2 := lnprob_below_branch xs ys vmin vmax v₂ hm2 hM2
      (lt_trans hv12 hv1)
    rw [hr1, hr2, den_logOf_of_pos _ _ hyhpos, den_logOf_of_pos _ _ hyhpos]
    rw [WithBot.coe_lt_coe]
    have hwidth : (0 : ℚ) < xs.getLastD 0 - xs.headI := by linarith
    have he : (v₂ - xs.headI) / (xs.getLastD 0 - xs.headI)
        < (v₁ - xs.headI) / (xs.getLastD 0 - xs.headI) :=
      div_lt_div_of_pos_right (by linarith) hwidth
    have he' : (((v₂ - xs.headI) / (xs.getLastD 0 - xs.headI) : ℚ) : ℝ)
        < (((v₁ - xs.headI) / (xs.getLastD 0 - xs.headI) : ℚ) : ℝ) := by
      exact_mod_cast he
    exact add_lt_add_left he' _
  · intro hyhpos value hm hM hv
    rw [lnprob_below_branch xs ys vmin vmax value hm hM hv,
      den_logOf_of_pos _ _ hyhpos]
    exact WithBot.coe_ne_bot

/-- Witness for C3 (amended) at the curve `x = [0, 1]`, `y = [1, 1]`:
above the support at `value = 3`, `e = (1 - 3) / (1 - 0) = -2`; below the
support at `value = -1`, `e = (-1 - 0) / (1 - 0) = -1`; both results
denote finite log-probabilities. -/
theorem lnprob_tail_extrapolation_witness :
    lnprob [0, 1] [1, 1] none none 3 = .logOf 1 (-2)
    ∧ (lnprob [0, 1] [1, 1] none none 3).den ≠ ⊥
    ∧ lnprob [0, 1] [1, 1] none none (-1) = .logOf 1 (-1)
    ∧ (lnprob [0, 1] [1, 1] none none (-1)).den ≠ ⊥ := by
  have h := lnprob_tail_extrapolation [0, 1] [1, 1] none none
    (by simp [List.chain'_cons]) rfl (by simp)
  refine ⟨?_, ?_, ?_, ?_⟩
  · have h1 := h.1 3 rfl rfl (by norm_num [List.getLastD])
    norm_num [List.getLastD] at h1
    exact h1
  · exact h.2.2.2.1 (by norm_num [List.getLastD]) 3 rfl rfl
      (by norm_num [List.getLastD])
  · have h1 := h.2.1 (-1) rfl rfl (by norm_num)
    norm_num [List.getLastD] at h1
    exact h1
  · exact h.2.2.2.2.2 (by norm_num) (-1) rfl rfl (by norm_num)

/-- C3 counterexample: the curve `x = [0, 1, 2]`, `y = [0, 1, 0]`
satisfies the §3 curve invariant, yet above its support the returned
log-probability is identically `-inf` (the boundary density is 0): it is
not strictly decreasing from 3 to 4 and not finite. -/
theorem lnprob_tail_cex :
    curveInv [0, 1, 2] [0, 1, 0]
    ∧ ((2 : ℚ) < 3 ∧ (3 : ℚ) < 4)
    ∧ lnprob [0, 1, 2] [0, 1, 0] none none 3 = .logOf 0 (-1/2)
    ∧ lnprob [0, 1, 2] [0, 1, 0] none none 4 = .logOf 0 (-1)
    ∧ ¬ ((lnprob [0, 1, 2] [0, 1, 0] none none 4).den
          < (lnprob [0, 1, 2] [0, 1, 0] none none 3).den)
    ∧ (lnprob [0, 1, 2] [0, 1, 0] none none 3).den = ⊥ := by
  have h3 : lnprob [0, 1, 2] [0, 1, 0] none none 3 = .logOf 0 (-1/2) := by
    rw [lnprob]
    norm_num [belowMin, aboveMax, List.getLastD]
  have h4 : lnprob [0, 1, 2] [0, 1, 0] none none 4 = .logOf 0 (-1) := by
    rw [lnprob]
    norm_num [belowMin, aboveMax, List.getLastD]
  refine ⟨?_, ⟨by norm_num, by norm_num⟩, h3, h4, ?_, ?_⟩
  · refine ⟨rfl, ?_, ?_, ?_⟩
    · simp [List.chain'_cons]
    · intro y hy
      simp at hy
      rcases hy with h | h | h <;> simp [h]
    · norm_num [np_trapz]
  · rw [h3, h4]
    simp [LnResult.den]
  · rw [h3]
    simp [LnResult.den]

/-- C5 (amended): for a curve with strictly increasing `x` and
non-negative `y`, `lnprob` is total (the embedding returns on every
rational input, matching the code, which never raises for finite numeric
input) and its value is `-inf` or the log of a non-negative density;
`vtail > 0` is NOT guaranteed by the curve invariant alone, but when
every density value is strictly positive the logarithm is only ever
taken of a positive density and the result denotes `-inf` (hard bound)
or a finite real. -/
theorem lnprob_total_safe (xs ys : List ℚ) (vmin vmax : Option ℚ)
    (value : ℚ) (hchain : List.Chain' (· < ·) xs)
    (hy : ∀ y ∈ ys, 0 ≤ y) :
    (lnprob xs ys vmin vmax value = .negInf
      ∨ ∃ v e, lnprob xs ys vmin vmax value = .logOf v e ∧ 0 ≤ v)
    ∧ ((∀ y ∈ ys, 0 < y) → xs.length = ys.length → 2 ≤ xs.length →
        lnprob xs ys vmin vmax value = .negInf
        ∨ ∃ v e, lnprob xs ys vmin vmax value = .logOf v e ∧ 0 < v
            ∧ (lnprob xs ys vmin vmax value).den ≠ ⊥) := by
  by_cases h1 : (belowMin vmin value || aboveMax vmax value) = true
  · have hr : lnprob xs ys vmin vmax value = .negInf := by
      rw [lnprob, if_pos h1]
    exact ⟨Or.inl hr, fun _ _ _ => Or.inl hr⟩
  · by_cases h2 : xs.headI ≤ value ∧ value ≤ xs.getLastD 0
    · have hr : lnprob xs ys vmin vmax value
          = .logOf (np_interp value xs ys) 0 := by
        rw [lnprob, if_neg h1, if_pos h2]
      constructor
      · exact Or.inr ⟨_, 0, hr, np_interp_nonneg xs ys value hchain hy⟩
      · intro hpos hlen hl2
        have hv : 0 < np_interp value xs ys :=
          np_interp_pos xs ys value hchain hlen hl2 hpos
        refine Or.inr ⟨_, 0, hr, hv, ?_⟩
        rw [hr, den_logOf_of_pos _ _ hv]
        exact WithBot.coe_ne_bot
    · by_cases h3 : value < xs.headI
      · have hr : lnprob xs ys vmin vmax value
            = .logOf ys.headI
                ((value - xs.headI) / (xs.getLastD 0 - xs.headI)) := by
          rw [lnprob, if_neg h1, if_neg h2, if_pos h3]
        constructor
        · exact Or.inr ⟨_, _, hr, headI_nonneg ys hy⟩
        · intro hpos hlen hl2
          have hne : ys ≠ [] := by
            intro hnil
            have hz : xs.length = 0 := by
              rw [hnil] at hlen
              simpa using hlen
            omega
          have hv : 0 < ys.headI := headI_pos ys hne hpos
          refine Or.inr ⟨_, _, hr, hv, ?_⟩
          rw [hr, den_logOf_of_pos _ _ hv]
          exact WithBot.coe_ne_bot
      · have hr : lnprob xs ys vmin vmax value
            = .logOf (ys.getLastD 0)
                ((xs.getLastD 0 - value) / (xs.getLastD 0 - xs.headI)) := by
          rw [lnprob, if_neg h1, if_neg h2, if_neg h3]
        constructor
        · exact Or.inr ⟨_, _, hr, getLastD_nonneg ys hy⟩
        · intro hpos hlen hl2
          have hne : ys ≠ [] := by
            intro hnil
            have hz : xs.length = 0 := by
              rw [hnil] at hlen
              simpa using hlen
            omega
          have hv : 0 < ys.getLastD 0 := getLastD_pos ys hne hpos
          refine Or.inr ⟨_, _, hr, hv, ?_⟩
          rw [hr, den_logOf_of_pos _ _ hv]
          exact WithBot.coe_ne_bot

/-- Witness for C5 (amended) at the strictly positive curve `x = [0, 1]`,
`y = [1, 1]` and `value = 1/2`. -/
theorem lnprob_total_safe_witness :
    (lnprob [0, 1] [1, 1] none none (1/2) = .negInf
      ∨ ∃ v e, lnprob [0, 1] [1, 1] none none (1/2) = .logOf v e ∧ 0 ≤ v)
    ∧ (lnprob [0, 1] [1, 1] none none (1/2) = .negInf
      ∨ ∃ v e, lnprob [0, 1] [1, 1] none none (1/2) = .logOf v e ∧ 0 < v
          ∧ (lnprob [0, 1] [1, 1] none none (1/2)).den ≠ ⊥) := by
  have h := lnprob_total_safe [0, 1] [1, 1] none none (1/2)
    (by simp [List.chain'_cons]) (by intro y hy; simp at hy; simp [hy])
  exact ⟨h.1, h.2 (by intro y hy; simp at hy; simp [hy]) rfl (by simp)⟩

/-- C5 counterexample: the curve `x = [0, 1, 2]`, `y = [0, 1, 0]`
satisfies the §3 curve invariant, yet `vtail = y[0] = 0` is not positive
and `lnprob` at `value = -1` takes the logarithm of the non-positive
density 0 (numpy `log(0) = -inf` with a warning): the invariant does not
guarantee a positive `vtail`. -/
theorem lnprob_log_nonpositive_cex :
    curveInv [0, 1, 2] [0, 1, 0]
    ∧ lnprob [0, 1, 2] [0, 1, 0] none none (-1) = .logOf 0 (-1/2)
    ∧ ¬ (0 : ℚ) < 0
    ∧ (LnResult.logOf (0 : ℚ) (-1/2)).den = ⊥ := by
  refine ⟨?_, ?_, by norm_num, by simp [LnResult.den]⟩
  · refine ⟨rfl, ?_, ?_, ?_⟩
    · simp [List.chain'_cons]
    · intro y hy
      simp at hy
      rcases hy with h | h | h <;> simp [h]
    · norm_num [np_trapz]
  · rw [lnprob]
    norm_num [belowMin, aboveMax, List.getLastD]
